import Mathlib

/-!
Verification of the chess game-session / time-accounting core of
Castle-Libs (`src/chess.rs`).

The Rust code is shallowly embedded below.  Machine integers (`u32`, and the
`u16` cast used for turn indices) are modelled as `Nat` with explicit wrapping
(`% 2^32`, `% 2^16`) at the operations where Rust release builds wrap.
The external chess Rule Engine (the `pleco` crate: legality, board application,
side to move, checkmate) is not part of this repository; it is abstracted as a
`RuleEngine` structure whose capability surface follows the specification, and
concrete toy instances are used for closed evaluations.
-/

namespace CastleChess

/-- Modulus of `u32` arithmetic. -/
def U32 : Nat := 4294967296

/-- Modulus of `u16` arithmetic (the `turn as u16` casts in `chess.rs`). -/
def U16 : Nat := 65536

/-- Wrapping `u32` addition, as Rust release builds compute `a + b`. -/
def wadd (a b : Nat) : Nat := (a + b) % U32

/-- Wrapping `u32` subtraction, as Rust release builds compute `a - b`
for operands already reduced below `2^32`. -/
def wsub (a b : Nat) : Nat := (a % U32 + U32 - b % U32) % U32

/-- Side to move, `pleco::Player`. -/
inductive Player where
  | White
  | Black
deriving DecidableEq, Repr

/-- Modelled from the spec: the external Rule Engine capability surface (§6).
`apply` attempts a move on a position and reports legality together with the
resulting position (`pleco::Board::apply_uci_move` mutates the board and
returns the legality flag); `turn` is `Board::turn`; `checkmate` is
`Board::checkmate`.  The engine itself (the `pleco` crate) is outside this
repository. -/
structure RuleEngine where
  Board : Type
  apply : Board → String → Bool × Board
  turn : Board → Player
  checkmate : Board → Bool

/-- `Move` from `chess.rs`: a UCI move string plus the milliseconds spent. -/
structure Move where
  uci_move : String
  time_taken : Nat
deriving DecidableEq, Repr

/-- `ChessGame` from `chess.rs`, parametric in the external Rule Engine. -/
structure ChessGame (re : RuleEngine) where
  initial_board : re.Board
  moves : List Move
  start_time : Nat
  time_limit : Nat
  increment : Nat

/-- Errors of the mutating operations (`io::Error` values in the source,
distinguished here by their message). -/
inductive ChessError where
  | illegalMove
  | emptyHistory
deriving DecidableEq, Repr

variable (re : RuleEngine)

/-- `ChessGame::compute_current_board`: replay the whole history from the
initial board through the engine, keeping the resulting board each time. -/
def compute_current_board (g : ChessGame re) : re.Board :=
  g.moves.foldl (fun b m => (re.apply b m.uci_move).2) g.initial_board

/-- Loop of `compute_board_at_turn`: apply moves while the enumerated index,
cast to `u16`, is below the target turn, breaking at the first failure. -/
def boardAtTurnGo (g : ChessGame re) : re.Board → List Move → Nat → Nat → re.Board
  | b, [], _, _ => b
  | b, m :: rest, i, target =>
    if i % U16 < target then
      boardAtTurnGo g ((re.apply b m.uci_move).2) rest (i + 1) target
    else b

/-- `ChessGame::compute_board_at_turn`: the position after the first
`target` moves (`target` is a `u16` in the source). -/
def compute_board_at_turn (g : ChessGame re) (target : Nat) : re.Board :=
  boardAtTurnGo re g g.initial_board g.moves 0 target

/-- `ChessGame::is_move_legal`: ask the engine to apply the candidate move to
the current derived board and return the legality flag. -/
def is_move_legal (g : ChessGame re) (m : Move) : Bool :=
  (re.apply (compute_current_board re g) m.uci_move).1

/-- `ChessGame::play_move`: append the move if legal, else fail. -/
def play_move (g : ChessGame re) (m : Move) : Except ChessError (ChessGame re) :=
  if is_move_legal re g m then
    Except.ok { g with moves := g.moves ++ [m] }
  else
    Except.error ChessError.illegalMove

/-- `ChessGame::undo_move`: pop the last move if the history is non-empty,
else fail.  (The source also replays a scratch board and undoes a move on it,
but that local board is discarded, so the session state is just the pop.) -/
def undo_move (g : ChessGame re) : Except ChessError (ChessGame re) :=
  match g.moves with
  | [] => Except.error ChessError.emptyHistory
  | _ :: _ => Except.ok { g with moves := g.moves.dropLast }

/-- Loop of `compute_white_moves_pure_time`: for the move at index `i`, the
board after `i+1` moves is derived and the move counts iff Black is then to
move; counted times are accumulated with `u32` addition. -/
def whitePureGo (g : ChessGame re) : List Move → Nat → Nat → Nat
  | [], _, acc => acc
  | m :: rest, i, acc =>
    whitePureGo g rest (i + 1)
      (if re.turn (compute_board_at_turn re g ((i + 1) % U16)) = Player.Black
       then wadd acc m.time_taken else acc)

/-- `ChessGame::compute_white_moves_pure_time`. -/
def compute_white_moves_pure_time (g : ChessGame re) : Nat :=
  whitePureGo re g g.moves 0 0

/-- Loop of `compute_black_moves_pure_time`.  Its body in the source is
textually identical to the white loop, including the `== Player::Black`
turn test. -/
def blackPureGo (g : ChessGame re) : List Move → Nat → Nat → Nat
  | [], _, acc => acc
  | m :: rest, i, acc =>
    blackPureGo g rest (i + 1)
      (if re.turn (compute_board_at_turn re g ((i + 1) % U16)) = Player.Black
       then wadd acc m.time_taken else acc)

/-- `ChessGame::compute_black_moves_pure_time`. -/
def compute_black_moves_pure_time (g : ChessGame re) : Nat :=
  blackPureGo re g g.moves 0 0

/-- The per-move increment discount of the with-increment loops: add the
move's time, then subtract `increment` when the running total allows it,
otherwise floor the total to zero. -/
def incStep (inc acc t : Nat) : Nat :=
  if inc ≤ wadd acc t then wadd acc t - inc else 0

/-- Loop of `compute_white_moves_time_with_increment` (turn test
`== Player::Black`, then the increment discount). -/
def whiteIncGo (g : ChessGame re) : List Move → Nat → Nat → Nat
  | [], _, acc => acc
  | m :: rest, i, acc =>
    whiteIncGo g rest (i + 1)
      (if re.turn (compute_board_at_turn re g ((i + 1) % U16)) = Player.Black
       then incStep g.increment acc m.time_taken else acc)

/-- `ChessGame::compute_white_moves_time_with_increment`. -/
def compute_white_moves_time_with_increment (g : ChessGame re) : Nat :=
  whiteIncGo re g g.moves 0 0

/-- Loop of `compute_black_moves_time_with_increment` (turn test
`== Player::White`, then the increment discount). -/
def blackIncGo (g : ChessGame re) : List Move → Nat → Nat → Nat
  | [], _, acc => acc
  | m :: rest, i, acc =>
    blackIncGo g rest (i + 1)
      (if re.turn (compute_board_at_turn re g ((i + 1) % U16)) = Player.White
       then incStep g.increment acc m.time_taken else acc)

/-- `ChessGame::compute_black_moves_time_with_increment`. -/
def compute_black_moves_time_with_increment (g : ChessGame re) : Nat :=
  blackIncGo re g g.moves 0 0

/-- `ChessGame::compute_total_moves_pure_time`: `u32` sum of all
`time_taken` fields, regardless of side. -/
def compute_total_moves_pure_time (g : ChessGame re) : Nat :=
  g.moves.foldl (fun acc m => wadd acc m.time_taken) 0

/-- `ChessGame::compute_current_move_time`.  The wall clock is an input:
`now_millis` is the `SystemTime::now()` reading in milliseconds since the
epoch; the source truncates it to `u32` and subtracts
`start_time + total pure time` with plain `u32` subtraction. -/
def compute_current_move_time (g : ChessGame re) (now_millis : Nat) : Nat :=
  wsub (now_millis % U32) (wadd g.start_time (compute_total_moves_pure_time re g))

/-- `ChessGame::compute_white_used_time` (wall clock as input). -/
def compute_white_used_time (g : ChessGame re) (now_millis : Nat) : Nat :=
  match re.turn (compute_current_board re g) with
  | Player.White =>
      wadd (compute_white_moves_time_with_increment re g)
        (compute_current_move_time re g now_millis)
  | Player.Black => compute_white_moves_time_with_increment re g

/-- `ChessGame::compute_black_used_time` (wall clock as input; the source's
debug print has no effect on the result). -/
def compute_black_used_time (g : ChessGame re) (now_millis : Nat) : Nat :=
  match re.turn (compute_current_board re g) with
  | Player.White => compute_black_moves_time_with_increment re g
  | Player.Black =>
      wadd (compute_black_moves_time_with_increment re g)
        (compute_current_move_time re g now_millis)

/-- `ChessGame::is_white_time_over`. -/
def is_white_time_over (g : ChessGame re) (now_millis : Nat) : Bool :=
  g.time_limit < compute_white_used_time re g now_millis

/-- `ChessGame::is_black_time_over`. -/
def is_black_time_over (g : ChessGame re) (now_millis : Nat) : Bool :=
  g.time_limit < compute_black_used_time re g now_millis

/-- `ChessGame::is_checkmate`. -/
def is_checkmate (g : ChessGame re) : Bool :=
  re.checkmate (compute_current_board re g)

/-- Times of the moves after whose application the given side is to move,
in history order, using exactly the classification of the accounting loops
(board after `(i+1) % 2^16` moves).  Per the attribution convention, the
moves after which Black is to move are White's moves and vice versa. -/
def attrTimesGo (g : ChessGame re) (side : Player) : List Move → Nat → List Nat
  | [], _ => []
  | m :: rest, i =>
    if re.turn (compute_board_at_turn re g ((i + 1) % U16)) = side
    then m.time_taken :: attrTimesGo g side rest (i + 1)
    else attrTimesGo g side rest (i + 1)

/-- Times of the moves attributed to White: Black is to move afterwards. -/
def whiteAttributedTimes (g : ChessGame re) : List Nat :=
  attrTimesGo re g Player.Black g.moves 0

/-- Times of the moves attributed to Black: White is to move afterwards. -/
def blackAttributedTimes (g : ChessGame re) : List Nat :=
  attrTimesGo re g Player.White g.moves 0

/-- The side that is to move once the given side has moved. -/
def Player.flip : Player → Player
  | Player.White => Player.Black
  | Player.Black => Player.White

/-- Modelled from the spec: a minimal Rule Engine instance for concrete
evaluations.  A position is reduced to its side to move; every move is legal
and `apply` hands the move to the opponent, which is how a real engine behaves
on the legal move sequences used below (§6: `apply`, `turnToMove`). -/
def specEngine : RuleEngine where
  Board := Player
  apply := fun b _ => (true, Player.flip b)
  turn := fun b => b
  checkmate := fun _ => false

/-- Modelled from the spec: like `specEngine`, but the engine rejects the
notation `"zz"`, leaving the position unchanged — a stand-in for an illegal
move so that the failure paths can be exercised (§6: `apply` reports
legality). -/
def strictEngine : RuleEngine where
  Board := Player
  apply := fun b s => if s = "zz" then (false, b) else (true, Player.flip b)
  turn := fun b => b
  checkmate := fun _ => false

/-- Scenario B session: time limit 180000 ms, increment 10 ms, the moves
e2e4/1000, a7a6/1000, g1h3/500, started at epoch-millisecond 100000. -/
def gameB : ChessGame specEngine where
  initial_board := Player.White
  moves := [⟨"e2e4", 1000⟩, ⟨"a7a6", 1000⟩, ⟨"g1h3", 500⟩]
  start_time := 100000
  time_limit := 180000
  increment := 10

/-- A two-move session: e2e4/1000 (White's move: Black to move afterwards)
and a7a6/2000 (Black's move: White to move afterwards). -/
def gameTwo : ChessGame specEngine where
  initial_board := Player.White
  moves := [⟨"e2e4", 1000⟩, ⟨"a7a6", 2000⟩]
  start_time := 100000
  time_limit := 180000
  increment := 10

/-- A fresh session (no moves) whose recorded start time is
epoch-millisecond 1000. -/
def gameClock : ChessGame specEngine where
  initial_board := Player.White
  moves := []
  start_time := 1000
  time_limit := 180000
  increment := 10

/-- A session with increment 10 where each side has played one move faster
than the increment (e2e4/5, a7a6/7). -/
def gameInc : ChessGame specEngine where
  initial_board := Player.White
  moves := [⟨"e2e4", 5⟩, ⟨"a7a6", 7⟩]
  start_time := 100000
  time_limit := 180000
  increment := 10

/-- A session over `strictEngine` with an empty history. -/
def gameFresh : ChessGame strictEngine where
  initial_board := Player.White
  moves := []
  start_time := 100000
  time_limit := 180000
  increment := 10

/-- `gameFresh` after one move e2e4/1000. -/
def gameOne : ChessGame strictEngine where
  initial_board := Player.White
  moves := [⟨"e2e4", 1000⟩]
  start_time := 100000
  time_limit := 180000
  increment := 10

/-! ### Deserialization (`impl Deserialize for ChessGame`, `visit_map`)

The serde `MapAccess` input is modelled as the list of key/value entries the
deserializer yields; the raw result keeps the FEN string unparsed, since
`Board::from_fen` belongs to the external engine. -/

/-- The session fields as read off the wire, before FEN parsing. -/
structure RawGame where
  initial_board : String
  moves : List Move
  start_time : Nat
  time_limit : Nat
  increment : Nat
deriving DecidableEq, Repr

/-- Deserialization errors produced by `visit_map`
(`de::Error::missing_field` / `de::Error::duplicate_field`). -/
inductive DeError where
  | missingField (f : String)
  | duplicateField (f : String)
deriving DecidableEq, Repr

/-- One key/value entry of the serialized map, keys per the `Field`
identifier enum of the source. -/
inductive MapEntry where
  | initialBoardE (s : String)
  | movesE (ms : List Move)
  | startTimeE (n : Nat)
  | timeLimitE (n : Nat)
  | incrementE (n : Nat)
deriving DecidableEq, Repr

/-- The `ok_or_else` cascade at the end of `visit_map`, in source order
(initial_board, moves, increment, start_time, time_limit); every
`missing_field` call in the source passes the string "initial_board". -/
def finishVisitMap (ib : Option String) (mv : Option (List Move))
    (st tl inc : Option Nat) : Except DeError RawGame :=
  match ib with
  | none => Except.error (DeError.missingField "initial_board")
  | some ib =>
    match mv with
    | none => Except.error (DeError.missingField "initial_board")
    | some mv =>
      match inc with
      | none => Except.error (DeError.missingField "initial_board")
      | some inc =>
        match st with
        | none => Except.error (DeError.missingField "initial_board")
        | some st =>
          match tl with
          | none => Except.error (DeError.missingField "initial_board")
          | some tl => Except.ok ⟨ib, mv, st, tl, inc⟩

/-- The `while let Some(key)` loop of `visit_map`: collect each field once,
failing on duplicates (every `duplicate_field` call in the source also
passes "initial_board"). -/
def visitMapLoop : List MapEntry → Option String → Option (List Move) →
    Option Nat → Option Nat → Option Nat → Except DeError RawGame
  | [], ib, mv, st, tl, inc => finishVisitMap ib mv st tl inc
  | MapEntry.initialBoardE s :: rest, ib, mv, st, tl, inc =>
    if ib.isSome then Except.error (DeError.duplicateField "initial_board")
    else visitMapLoop rest (some s) mv st tl inc
  | MapEntry.movesE ms :: rest, ib, mv, st, tl, inc =>
    if mv.isSome then Except.error (DeError.duplicateField "initial_board")
    else visitMapLoop rest ib (some ms) st tl inc
  | MapEntry.startTimeE n :: rest, ib, mv, st, tl, inc =>
    if st.isSome then Except.error (DeError.duplicateField "initial_board")
    else visitMapLoop rest ib mv (some n) tl inc
  | MapEntry.timeLimitE n :: rest, ib, mv, st, tl, inc =>
    if tl.isSome then Except.error (DeError.duplicateField "initial_board")
    else visitMapLoop rest ib mv st (some n) inc
  | MapEntry.incrementE n :: rest, ib, mv, st, tl, inc =>
    if inc.isSome then Except.error (DeError.duplicateField "initial_board")
    else visitMapLoop rest ib mv st tl (some n)

/-- `ChessGameVisitor::visit_map` on a map given as its entry list. -/
def chessGameVisitMap (entries : List MapEntry) : Except DeError RawGame :=
  visitMapLoop entries none none none none none

/-! ### Helper lemmas -/

/-- The black pure-time loop is the white pure-time loop: their bodies are
textually identical in the source (both test `== Player::Black`). -/
theorem blackPureGo_eq_whitePureGo (g : ChessGame re) :
    ∀ (l : List Move) (i acc : Nat),
      blackPureGo re g l i acc = whitePureGo re g l i acc := by
  intro l
  induction l with
  | nil => intro i acc; rfl
  | cons m rest ih =>
    intro i acc
    simp only [blackPureGo, whitePureGo]
    exact ih _ _

/-- The white pure-time loop folds wrapping addition over the times of the
moves after which Black is to move. -/
theorem whitePureGo_eq_foldl (g : ChessGame re) :
    ∀ (l : List Move) (i acc : Nat),
      whitePureGo re g l i acc =
        List.foldl wadd acc (attrTimesGo re g Player.Black l i) := by
  intro l
  induction l with
  | nil => intro i acc; rfl
  | cons m rest ih =>
    intro i acc
    simp only [whitePureGo, attrTimesGo]
    by_cases h : re.turn (compute_board_at_turn re g ((i + 1) % U16)) = Player.Black
    · simp only [if_pos h, List.foldl_cons]
      exact ih _ _
    · simp only [if_neg h]
      exact ih _ _

/-- The white with-increment loop folds the increment-discount step over the
times of the moves after which Black is to move. -/
theorem whiteIncGo_eq_foldl (g : ChessGame re) :
    ∀ (l : List Move) (i acc : Nat),
      whiteIncGo re g l i acc =
        List.foldl (incStep g.increment) acc (attrTimesGo re g Player.Black l i) := by
  intro l
  induction l with
  | nil => intro i acc; rfl
  | cons m rest ih =>
    intro i acc
    simp only [whiteIncGo, attrTimesGo]
    by_cases h : re.turn (compute_board_at_turn re g ((i + 1) % U16)) = Player.Black
    · simp only [if_pos h, List.foldl_cons]
      exact ih _ _
    · simp only [if_neg h]
      exact ih _ _

/-- The black with-increment loop folds the increment-discount step over the
times of the moves after which White is to move. -/
theorem blackIncGo_eq_foldl (g : ChessGame re) :
    ∀ (l : List Move) (i acc : Nat),
      blackIncGo re g l i acc =
        List.foldl (incStep g.increment) acc (attrTimesGo re g Player.White l i) := by
  intro l
  induction l with
  | nil => intro i acc; rfl
  | cons m rest ih =>
    intro i acc
    simp only [blackIncGo, attrTimesGo]
    by_cases h : re.turn (compute_board_at_turn re g ((i + 1) % U16)) = Player.White
    · simp only [if_pos h, List.foldl_cons]
      exact ih _ _
    · simp only [if_neg h]
      exact ih _ _

/-- A single discount step starting from zero with a move faster than the
increment floors to exactly zero. -/
theorem incStep_zero_of_lt (inc t : Nat) (h : t < inc) : incStep inc 0 t = 0 := by
  have h1 : wadd 0 t ≤ t := by
    unfold wadd
    simp only [Nat.zero_add]
    exact Nat.mod_le t U32
  unfold incStep
  rw [if_neg (by omega)]

/-! ### Claim theorems -/

/-- Claim C1: the claim states that `compute_total_moves_pure_time` always
equals the sum of the white and black pure times.  On the session `gameTwo`
(moves e2e4/1000 and a7a6/2000) the total is 3000 while the two per-side pure
times sum to 2000, because `compute_black_moves_pure_time` tests the same
turn condition as the white function and therefore also counts White's moves:
the code contradicts the claim at this input. -/
theorem c1_total_not_sum_of_sides_eval :
    compute_total_moves_pure_time specEngine gameTwo = 3000 ∧
    compute_white_moves_pure_time specEngine gameTwo +
      compute_black_moves_pure_time specEngine gameTwo = 2000 :=
  ⟨rfl, rfl⟩

/-- Claim C2: the claim states that each side's pure time sums `timeTaken`
over exactly the moves attributed to that side (Black-attributed = White to
move afterwards).  On `gameTwo` the only Black-attributed move is a7a6 with
time 2000, yet `compute_black_moves_pure_time` returns 1000 — the time of
White's move e2e4 — since its body tests `turn == Black` exactly like the
white function, contradicting both the claim and its own doc comment. -/
theorem c2_black_pure_time_counts_wrong_side :
    compute_black_moves_pure_time specEngine gameTwo = 1000 ∧
    blackAttributedTimes specEngine gameTwo = [2000] :=
  ⟨rfl, rfl⟩

/-- Claim C3: the claim states that a missing field on deserialization fails
with a parse error naming that field.  A map providing every field except
`start_time` does fail, but the error names `initial_board`: every
`missing_field` call in `visit_map` was copy-pasted with the string
"initial_board", so the claim's naming requirement fails at this input. -/
theorem c3_missing_start_time_names_initial_board :
    chessGameVisitMap
      [MapEntry.initialBoardE "rnbqkbnr/pppppppp/8/8/8/8/PPPPPPPP/RNBQKBNR w KQkq - 0 1",
       MapEntry.movesE [], MapEntry.timeLimitE 180000, MapEntry.incrementE 10] =
    Except.error (DeError.missingField "initial_board") :=
  rfl

/-- Claim C4: the claim states that when the wall clock reads earlier than
`startTime` plus the prior moves' pure time, `compute_current_move_time`
clamps the subtraction to zero.  On a fresh session with `start_time` 1000 and
a wall-clock reading of 999 the code instead performs an unchecked `u32`
subtraction, wrapping to 4294967295 (and panicking in debug builds), so the
clamping the claim requires is absent. -/
theorem c4_clock_backwards_wraps :
    gameClock.start_time = 1000 ∧
    compute_current_move_time specEngine gameClock 999 = 4294967295 :=
  ⟨rfl, rfl⟩

/-- Claim C5: Scenario B — time limit 180000 ms, increment 10 ms, moves
e2e4/1000, a7a6/1000, g1h3/500, and the wall clock read exactly 2500 ms after
the start time (100000 + 2500): white used time is 1480 and black used time
is 990. -/
theorem c5_scenario_b :
    compute_white_used_time specEngine gameB 102500 = 1480 ∧
    compute_black_used_time specEngine gameB 102500 = 990 :=
  ⟨rfl, rfl⟩

/-- Claim C6: `play_move` is a transactional single-append — a legal move
yields the same session with exactly that record appended (all other fields
unchanged, as the record update shows), and an illegal move fails with the
IllegalMove error, producing no new session state. -/
theorem c6_play_move_transactional (re : RuleEngine) (g : ChessGame re) (m : Move) :
    (is_move_legal re g m = true →
      play_move re g m = Except.ok { g with moves := g.moves ++ [m] }) ∧
    (is_move_legal re g m = false →
      play_move re g m = Except.error ChessError.illegalMove) := by
  constructor
  · intro h
    unfold play_move
    rw [if_pos h]
  · intro h
    unfold play_move
    rw [if_neg (by simp [h])]

/-- Witness for C6 at a concrete session: over `strictEngine`, playing e2e4
appends the record, and playing the rejected notation "zz" fails with
IllegalMove. -/
theorem c6_witness :
    play_move strictEngine gameFresh ⟨"e2e4", 1000⟩ =
      Except.ok { gameFresh with moves := gameFresh.moves ++ [⟨"e2e4", 1000⟩] } ∧
    play_move strictEngine gameFresh ⟨"zz", 1⟩ =
      Except.error ChessError.illegalMove :=
  ⟨(c6_play_move_transactional strictEngine gameFresh ⟨"e2e4", 1000⟩).1 rfl,
   (c6_play_move_transactional strictEngine gameFresh ⟨"zz", 1⟩).2 rfl⟩

/-- Claim C7: `undo_move` on an empty history fails with the EmptyHistory
error and produces no new session; on a non-empty history it succeeds and
removes exactly the last record, leaving every other field unchanged. -/
theorem c7_undo_move (re : RuleEngine) (g : ChessGame re) :
    (g.moves = [] → undo_move re g = Except.error ChessError.emptyHistory) ∧
    (g.moves ≠ [] → undo_move re g = Except.ok { g with moves := g.moves.dropLast }) := by
  obtain ⟨ib, mv, st, tl, inc⟩ := g
  constructor
  · intro h
    cases mv with
    | nil => rfl
    | cons a l => exact List.noConfusion h
  · intro h
    cases mv with
    | nil => exact absurd rfl h
    | cons a l => rfl

/-- Witness for C7 at concrete sessions: undo on the fresh session fails with
EmptyHistory, undo on the one-move session drops that move. -/
theorem c7_witness :
    undo_move strictEngine gameFresh = Except.error ChessError.emptyHistory ∧
    undo_move strictEngine gameOne =
      Except.ok { gameOne with moves := gameOne.moves.dropLast } :=
  ⟨(c7_undo_move strictEngine gameFresh).1 rfl,
   (c7_undo_move strictEngine gameOne).2 (by decide)⟩

/-- Claim C8: for every session and every move legal in it, `play_move`
followed by `undo_move` restores exactly the original session value — hence
the original `moveHistory` (length and content), `startTime`, `timeLimit`,
`increment`, and the value of every derived query, all of which are functions
of that session value. -/
theorem c8_play_undo_roundtrip (re : RuleEngine) (g : ChessGame re) (m : Move)
    (h : is_move_legal re g m = true) :
    Except.bind (play_move re g m) (undo_move re) = Except.ok g := by
  obtain ⟨ib, mv, st, tl, inc⟩ := g
  unfold play_move
  rw [if_pos h]
  show undo_move re ⟨ib, mv ++ [m], st, tl, inc⟩ = Except.ok ⟨ib, mv, st, tl, inc⟩
  cases mv with
  | nil => rfl
  | cons a l =>
    show Except.ok (⟨ib, ((a :: l) ++ [m]).dropLast, st, tl, inc⟩ : ChessGame re) =
      Except.ok ⟨ib, a :: l, st, tl, inc⟩
    rw [List.dropLast_concat]

/-- Witness for C8: playing a7a6/700 on the one-move session and undoing it
returns exactly the one-move session. -/
theorem c8_witness :
    Except.bind (play_move strictEngine gameOne ⟨"a7a6", 700⟩)
      (undo_move strictEngine) = Except.ok gameOne :=
  c8_play_undo_roundtrip strictEngine gameOne ⟨"a7a6", 700⟩ rfl

/-- Claim C9: the with-increment totals fold the discount step (add the
move's time, subtract `increment` when the running total is at least
`increment`, otherwise floor to zero) over exactly the side's attributed
moves; in particular a side whose single attributed move took less than
`increment` has a with-increment total of exactly 0. -/
theorem c9_increment_floor (re : RuleEngine) (g : ChessGame re) :
    compute_white_moves_time_with_increment re g =
      List.foldl (incStep g.increment) 0 (whiteAttributedTimes re g) ∧
    compute_black_moves_time_with_increment re g =
      List.foldl (incStep g.increment) 0 (blackAttributedTimes re g) ∧
    (∀ t, t < g.increment → whiteAttributedTimes re g = [t] →
      compute_white_moves_time_with_increment re g = 0) ∧
    (∀ t, t < g.increment → blackAttributedTimes re g = [t] →
      compute_black_moves_time_with_increment re g = 0) := by
  refine ⟨whiteIncGo_eq_foldl re g g.moves 0 0,
    blackIncGo_eq_foldl re g g.moves 0 0, ?_, ?_⟩
  · intro t ht hl
    rw [show compute_white_moves_time_with_increment re g =
      List.foldl (incStep g.increment) 0 (whiteAttributedTimes re g) from
      whiteIncGo_eq_foldl re g g.moves 0 0, hl]
    exact incStep_zero_of_lt g.increment t ht
  · intro t ht hl
    rw [show compute_black_moves_time_with_increment re g =
      List.foldl (incStep g.increment) 0 (blackAttributedTimes re g) from
      blackIncGo_eq_foldl re g g.moves 0 0, hl]
    exact incStep_zero_of_lt g.increment t ht

/-- Witness for C9 on `gameInc` (increment 10, one white move of 5 ms, one
black move of 7 ms): both with-increment totals are exactly 0. -/
theorem c9_witness :
    compute_white_moves_time_with_increment specEngine gameInc = 0 ∧
    compute_black_moves_time_with_increment specEngine gameInc = 0 :=
  ⟨(c9_increment_floor specEngine gameInc).2.2.1 5 (by decide) rfl,
   (c9_increment_floor specEngine gameInc).2.2.2 7 (by decide) rfl⟩

/-- Claim C10: `compute_black_moves_pure_time` is extensionally identical to
`compute_white_moves_pure_time` — for every engine and session the two return
the same value — and black's pure time accumulates exactly the times of the
moves after which Black is to move (the White-attributed moves), so it never
counts a move after which White is to move. -/
theorem c10_black_pure_equals_white_pure (re : RuleEngine) (g : ChessGame re) :
    compute_black_moves_pure_time re g = compute_white_moves_pure_time re g ∧
    compute_black_moves_pure_time re g =
      List.foldl wadd 0 (whiteAttributedTimes re g) := by
  constructor
  · exact blackPureGo_eq_whitePureGo re g g.moves 0 0
  · rw [show compute_black_moves_pure_time re g = whitePureGo re g g.moves 0 0 from
      blackPureGo_eq_whitePureGo re g g.moves 0 0]
    exact whitePureGo_eq_foldl re g g.moves 0 0

end CastleChess
